import Mathlib

/-!
Verification of the text-normalization core of the PDFBot CLI tool
(src/main.rs), a PDF→text converter.  Strings are modelled as `List Char`.

The first-party logic embedded here:
* `process_extracted_text` (src/main.rs lines 105–153): the normalizer —
  a line-by-line reconstruction loop, a whitespace-collapse pass
  (`split_whitespace` + `join(" ")`), and fixed header/footer wrapping;
* the driver's exit-code / output-path behaviour (src/main.rs lines 42–95),
  modelled as a pure function of an environment that records the outcomes
  of the black-box external operations (file-existence check, `Path::file_stem`
  + `to_str`, `pdf_extract::extract_text`, `fs::write`).

Rust `char::is_whitespace` (the Unicode `White_Space` property, a fixed
25-element set) is embedded exactly.  Rust `char::is_alphanumeric` is a
large Unicode class; the embedding is parametric in it (parameter `A`
below), so every theorem quantified over `A` holds in particular for the
real Rust predicate.  An ASCII instance is provided for concrete test
evaluation.
-/

namespace PDFBot

/-- Rust `char::is_whitespace`: the Unicode `White_Space` property,
its 25 code points listed explicitly. -/
def is_whitespace (c : Char) : Bool :=
  c.toNat = 0x09 || c.toNat = 0x0A || c.toNat = 0x0B || c.toNat = 0x0C ||
  c.toNat = 0x0D || c.toNat = 0x20 || c.toNat = 0x85 || c.toNat = 0xA0 ||
  c.toNat = 0x1680 || (0x2000 ≤ c.toNat && c.toNat ≤ 0x200A) ||
  c.toNat = 0x2028 || c.toNat = 0x2029 || c.toNat = 0x202F ||
  c.toNat = 0x205F || c.toNat = 0x3000

/-- Rust `str::trim`: remove leading and trailing `char::is_whitespace`
characters. -/
def trim (s : List Char) : List Char :=
  ((s.dropWhile is_whitespace).reverse.dropWhile is_whitespace).reverse

/-- Accumulator form of Rust `str::split_whitespace`: `cur` is the
(reversed) non-whitespace run currently being read. -/
def split_whitespace_aux : List Char → List Char → List (List Char)
  | [], cur => if cur = [] then [] else [cur.reverse]
  | c :: cs, cur =>
    if is_whitespace c then
      if cur = [] then split_whitespace_aux cs []
      else cur.reverse :: split_whitespace_aux cs []
    else split_whitespace_aux cs (c :: cur)

/-- Rust `str::split_whitespace` (collected to a list): the maximal
non-whitespace runs of `s`, in order. -/
def split_whitespace (s : List Char) : List (List Char) :=
  split_whitespace_aux s []

/-- Rust `Vec<&str>::join(" ")`: concatenate with a single space between
consecutive elements. -/
def join_space : List (List Char) → List Char
  | [] => []
  | [t] => t
  | t :: t' :: ts => t ++ ' ' :: join_space (t' :: ts)

/-- Strip one trailing carriage return, as Rust `str::lines` does on every
line that was terminated by `\n` (turning `\r\n` terminators into plain
line breaks). -/
def rstrip_cr (l : List Char) : List Char :=
  if l.getLast? = some '\r' then l.dropLast else l

/-- Accumulator form of Rust `str::lines`: `cur` is the (reversed) current
line.  A final line not terminated by `\n` is yielded as-is (no `\r`
stripping, matching Rust); a trailing line terminator yields no extra
empty line. -/
def lines_aux : List Char → List Char → List (List Char)
  | [], cur => if cur = [] then [] else [cur.reverse]
  | c :: cs, cur =>
    if c = '\n' then rstrip_cr cur.reverse :: lines_aux cs []
    else lines_aux cs (c :: cur)

/-- Rust `str::lines` (collected to a list). -/
def lines (s : List Char) : List (List Char) :=
  lines_aux s []

/-- One iteration of the reconstruction loop of `process_extracted_text`
(src/main.rs lines 109–135), acting on the accumulator `processed`.
`A` stands for Rust `char::is_alphanumeric`.  The Rust loop also assigns a
local `prev_char` that is never read; it is omitted. -/
def process_line (A : Char → Bool) (processed : List Char) (line : List Char) :
    List Char :=
  let trimmed := trim line
  if trimmed = [] then
    -- skip empty lines but record a paragraph break
    if !(['\n', '\n'].isSuffixOf processed) && !processed.isEmpty then
      processed ++ ['\n']
    else processed
  else
    let processed' :=
      if !processed.isEmpty && !(['\n'].isSuffixOf processed) then
        let last_char := (processed.getLast?).getD ' '
        let first_char := (trimmed.head?).getD ' '
        if A last_char && A first_char then processed ++ [' ']
        else if !(is_whitespace last_char) then processed ++ [' ']
        else processed
      else processed
    processed' ++ trimmed

/-- First header line pushed by `process_extracted_text` (src/main.rs
line 145). -/
def HEADER_LINE1 : List Char := "=== PDF TEXT EXTRACTION ===\n".toList

/-- Second header line (src/main.rs line 146). -/
def HEADER_LINE2 : List Char :=
  "This text was extracted from a PDF file for AI processing.\n".toList

/-- Third header line (src/main.rs line 147). -/
def HEADER_LINE3 : List Char :=
  "Some formatting and layout information may be lost.\n".toList

/-- Fourth header push: the content-begin marker and the blank line
before the content (src/main.rs line 148). -/
def HEADER_LINE4 : List Char := "=== CONTENT BEGINS ===\n\n".toList

/-- The fixed metadata header of the output: the four strings pushed in
order by `process_extracted_text` (src/main.rs lines 145–148). -/
def HEADER : List Char :=
  HEADER_LINE1 ++ HEADER_LINE2 ++ HEADER_LINE3 ++ HEADER_LINE4

/-- The fixed footer of the output (src/main.rs line 150). -/
def FOOTER : List Char := "\n\n=== CONTENT ENDS ===\n".toList

/-- The Rust local `cleaned` of `process_extracted_text`
(src/main.rs lines 106–141): run the reconstruction loop over the input's
lines, then collapse whitespace by `split_whitespace` + `join(" ")`.
This is the content region of the final output. -/
def cleaned_content (A : Char → Bool) (raw_text : List Char) : List Char :=
  join_space (split_whitespace ((lines raw_text).foldl (process_line A) []))

/-- src/main.rs `process_extracted_text` (lines 105–153): the content
region wrapped in the fixed header and footer.  Parametric in Rust
`char::is_alphanumeric` (`A`). -/
def process_extracted_text (A : Char → Bool) (raw_text : List Char) :
    List Char :=
  HEADER ++ cleaned_content A raw_text ++ FOOTER

/-- ASCII instance of the `is_alphanumeric` parameter, used to evaluate
the embedding on concrete test inputs. -/
def ascii_alphanumeric (c : Char) : Bool := c.isAlphanum

-- Sanity checks of the embedding on concrete inputs (the Rust unit test's
-- input, and the behaviour of `lines` on edge cases).
example : lines "a\r\nb".toList = ["a".toList, "b".toList] := by decide
example : lines "a\n".toList = ["a".toList] := by decide
example : lines "a\r".toList = ["a\r".toList] := by decide
example : lines ([] : List Char) = [] := by decide
example : split_whitespace "  a b\t\tcd ".toList =
    ["a".toList, "b".toList, "cd".toList] := by decide
example :
    cleaned_content ascii_alphanumeric
      "This is a test\n   \n\nwith multiple    spaces\nand line breaks".toList
    = "This is a test with multiple spaces and line breaks".toList := by
  decide

/-! ### Laws of `split_whitespace` -/

theorem split_whitespace_aux_ws_append (b : List Char) {w : Char}
    (hw : is_whitespace w = true) :
    ∀ (a cur : List Char),
      split_whitespace_aux (a ++ w :: b) cur
        = split_whitespace_aux a cur ++ split_whitespace b := by
  intro a
  induction a with
  | nil =>
    intro cur
    by_cases hc : cur = [] <;>
      simp [split_whitespace_aux, split_whitespace, hw, hc]
  | cons c a ih =>
    intro cur
    by_cases hcw : is_whitespace c = true
    · by_cases hc : cur = [] <;>
        simp [split_whitespace_aux, hcw, hc, ih]
    · simp [split_whitespace_aux, hcw, ih]

theorem split_whitespace_aux_all_ws :
    ∀ (s cur : List Char), (∀ c ∈ s, is_whitespace c = true) →
      split_whitespace_aux s cur = if cur = [] then [] else [cur.reverse] := by
  intro s
  induction s with
  | nil => intro cur _; rfl
  | cons c cs ih =>
    intro cur h
    have hc : is_whitespace c = true := h c (by simp)
    have hcs : ∀ x ∈ cs, is_whitespace x = true := fun x hx => h x (by simp [hx])
    by_cases hcur : cur = [] <;>
      simp [split_whitespace_aux, hc, hcur, ih [] hcs]

theorem split_whitespace_nil : split_whitespace [] = [] := rfl

theorem split_whitespace_all_ws {s : List Char}
    (h : ∀ c ∈ s, is_whitespace c = true) : split_whitespace s = [] := by
  simp [split_whitespace, split_whitespace_aux_all_ws s [] h]

theorem split_whitespace_ws_append {w : Char} (hw : is_whitespace w = true)
    (a b : List Char) :
    split_whitespace (a ++ w :: b)
      = split_whitespace a ++ split_whitespace b := by
  simpa [split_whitespace] using split_whitespace_aux_ws_append b hw a []

theorem split_whitespace_append_all_ws {a b : List Char}
    (h : ∀ c ∈ b, is_whitespace c = true) :
    split_whitespace (a ++ b) = split_whitespace a := by
  cases b with
  | nil => simp
  | cons w b' =>
    have hw : is_whitespace w = true := h w (by simp)
    have hb' : ∀ c ∈ b', is_whitespace c = true := fun c hc => h c (by simp [hc])
    rw [split_whitespace_ws_append hw, split_whitespace_all_ws hb',
      List.append_nil]

theorem split_whitespace_dropWhile (s : List Char) :
    split_whitespace (s.dropWhile is_whitespace) = split_whitespace s := by
  induction s with
  | nil => rfl
  | cons c cs ih =>
    by_cases hcw : is_whitespace c = true
    · simpa [List.dropWhile_cons, hcw, split_whitespace,
        split_whitespace_aux] using ih
    · simp [List.dropWhile_cons, hcw]

theorem split_whitespace_aux_run :
    ∀ (t : List Char), (∀ c ∈ t, is_whitespace c = false) →
    ∀ (rest cur : List Char),
      split_whitespace_aux (t ++ rest) cur
        = split_whitespace_aux rest (t.reverse ++ cur) := by
  intro t
  induction t with
  | nil => intro _ rest cur; simp
  | cons c t ih =>
    intro h rest cur
    have hc : is_whitespace c = false := h c (by simp)
    have ht : ∀ x ∈ t, is_whitespace x = false := fun x hx => h x (by simp [hx])
    simp [split_whitespace_aux, hc, ih ht, List.append_assoc]

theorem split_whitespace_aux_mem :
    ∀ (s cur : List Char), (∀ c ∈ cur, is_whitespace c = false) →
      ∀ t ∈ split_whitespace_aux s cur,
        t ≠ [] ∧ ∀ c ∈ t, is_whitespace c = false := by
  intro s
  induction s with
  | nil =>
    intro cur hcur t ht
    by_cases hc : cur = []
    · simp [split_whitespace_aux, hc] at ht
    · simp [split_whitespace_aux, hc] at ht
      subst ht
      refine ⟨by simpa using hc, ?_⟩
      intro c hc'
      exact hcur c (by simpa using hc')
  | cons c cs ih =>
    intro cur hcur t ht
    by_cases hcw : is_whitespace c = true
    · by_cases hc : cur = []
      · simp [split_whitespace_aux, hcw, hc] at ht
        exact ih [] (by simp) t ht
      · simp [split_whitespace_aux, hcw, hc] at ht
        rcases ht with ht | ht
        · subst ht
          refine ⟨by simpa using hc, ?_⟩
          intro x hx
          exact hcur x (by simpa using hx)
        · exact ih [] (by simp) t ht
    · simp [split_whitespace_aux, hcw] at ht
      refine ih (c :: cur) ?_ t ht
      intro x hx
      rcases List.mem_cons.mp hx with hx | hx
      · subst hx; simpa using hcw
      · exact hcur x hx

theorem split_whitespace_mem {s : List Char} :
    ∀ t ∈ split_whitespace s, t ≠ [] ∧ ∀ c ∈ t, is_whitespace c = false :=
  split_whitespace_aux_mem s [] (by simp)

theorem split_whitespace_join_space :
    ∀ (ts : List (List Char)),
      (∀ t ∈ ts, t ≠ [] ∧ ∀ c ∈ t, is_whitespace c = false) →
      split_whitespace (join_space ts) = ts := by
  intro ts
  induction ts with
  | nil => intro _; rfl
  | cons t ts ih =>
    intro h
    obtain ⟨htne, htc⟩ := h t (by simp)
    have hts : ∀ u ∈ ts, u ≠ [] ∧ ∀ c ∈ u, is_whitespace c = false :=
      fun u hu => h u (by simp [hu])
    cases ts with
    | nil =>
      show split_whitespace_aux t [] = [t]
      rw [show t = t ++ [] from (List.append_nil t).symm,
        split_whitespace_aux_run t htc [] []]
      simp [split_whitespace_aux, htne]
    | cons t' ts' =>
      show split_whitespace_aux (t ++ ' ' :: join_space (t' :: ts')) [] = _
      rw [split_whitespace_aux_run t htc _ []]
      have hsp : is_whitespace ' ' = true := by decide
      have hrev : t.reverse ++ [] ≠ [] := by simpa using htne
      have hih : split_whitespace_aux (join_space (t' :: ts')) [] = t' :: ts' :=
        ih hts
      simp [split_whitespace_aux, hsp, hrev, hih, htne]

/-! ### Laws of `trim` -/

theorem dropWhile_head_false {p : Char → Bool} :
    ∀ (s : List Char) {c : Char} {rest : List Char},
      s.dropWhile p = c :: rest → p c = false := by
  intro s
  induction s with
  | nil => intro c rest h; simp at h
  | cons a s ih =>
    intro c rest h
    by_cases ha : p a = true
    · rw [List.dropWhile_cons, if_pos ha] at h
      exact ih h
    · rw [List.dropWhile_cons, if_neg ha] at h
      injection h with h1 _
      subst h1
      simpa using ha

theorem trim_decomp (l : List Char) :
    ∃ tail, l.dropWhile is_whitespace = trim l ++ tail ∧
      ∀ c ∈ tail, is_whitespace c = true := by
  refine ⟨((l.dropWhile is_whitespace).reverse.takeWhile is_whitespace).reverse,
    ?_, ?_⟩
  · have h1 : (l.dropWhile is_whitespace).reverse.takeWhile is_whitespace ++
        (l.dropWhile is_whitespace).reverse.dropWhile is_whitespace
        = (l.dropWhile is_whitespace).reverse :=
      List.takeWhile_append_dropWhile _ _
    have h2 := congrArg List.reverse h1
    rw [List.reverse_append, List.reverse_reverse] at h2
    exact h2.symm
  · intro c hc
    exact List.mem_takeWhile_imp (by simpa using hc)

theorem trim_tokens (l : List Char) :
    split_whitespace (trim l) = split_whitespace l := by
  obtain ⟨tail, hdecomp, htail⟩ := trim_decomp l
  have h1 : split_whitespace (l.dropWhile is_whitespace) = split_whitespace l :=
    split_whitespace_dropWhile l
  rw [hdecomp, split_whitespace_append_all_ws htail] at h1
  exact h1

theorem trim_nil_tokens {l : List Char} (h : trim l = []) :
    split_whitespace l = [] := by
  rw [← trim_tokens l, h]
  rfl

theorem trim_getLast_not_ws {l : List Char} {c : Char}
    (h : (trim l).getLast? = some c) : is_whitespace c = false := by
  have h' : ((l.dropWhile is_whitespace).reverse.dropWhile
      is_whitespace).reverse.getLast? = some c := h
  rw [List.getLast?_reverse] at h'
  cases hd : (l.dropWhile is_whitespace).reverse.dropWhile is_whitespace with
  | nil => rw [hd] at h'; simp at h'
  | cons x rest =>
    rw [hd] at h'
    simp only [List.head?_cons, Option.some.injEq] at h'
    subst h'
    exact dropWhile_head_false _ hd

theorem trim_head_not_ws {l : List Char} {c : Char}
    (h : (trim l).head? = some c) : is_whitespace c = false := by
  obtain ⟨tail, hdecomp, _⟩ := trim_decomp l
  cases ht : trim l with
  | nil => rw [ht] at h; simp at h
  | cons x rest =>
    rw [ht] at h
    simp only [List.head?_cons, Option.some.injEq] at h
    subst h
    rw [ht] at hdecomp
    have hx : l.dropWhile is_whitespace = x :: (rest ++ tail) := by
      simpa using hdecomp
    exact dropWhile_head_false l hx

theorem isSuffixOf_singleton_iff {a : Char} {p : List Char} :
    [a].isSuffixOf p = true ↔ p.getLast? = some a := by
  rw [List.isSuffixOf_iff_suffix]
  constructor
  · rintro ⟨q, rfl⟩
    rw [List.getLast?_append_of_ne_nil q (by simp)]
    rfl
  · intro h
    exact ⟨p.dropLast, List.dropLast_append_getLast? a h⟩

/-! ### The reconstruction loop's tokens -/

/-- Loop invariant for `process_line`'s accumulator: it is empty, or its
last character is `'\n'` or a non-whitespace character (never any other
whitespace). -/
def good (p : List Char) : Prop :=
  ∀ c, p.getLast? = some c → c = '\n' ∨ is_whitespace c = false

theorem good_nil : good ([] : List Char) := by
  intro c hc
  simp at hc

theorem good_append_trim {l : List Char} (htr : trim l ≠ []) (X : List Char) :
    good (X ++ trim l) := by
  intro c hc
  rw [List.getLast?_append_of_ne_nil X htr] at hc
  exact Or.inr (trim_getLast_not_ws hc)

theorem process_line_blank {A : Char → Bool} {p l : List Char}
    (htr : trim l = []) :
    process_line A p l = p ∨ process_line A p l = p ++ ['\n'] := by
  by_cases hb : (!(['\n', '\n'].isSuffixOf p) && !p.isEmpty) = true
  · right; simp [process_line, htr, hb]
  · left; simp [process_line, htr, hb]

theorem process_line_nonblank {A : Char → Bool} {p l : List Char}
    (htr : trim l ≠ []) (hp : good p) :
    (p = [] ∧ process_line A p l = p ++ trim l) ∨
    (p.getLast? = some '\n' ∧ process_line A p l = p ++ trim l) ∨
    (∃ c, p.getLast? = some c ∧ c ≠ '\n' ∧ is_whitespace c = false ∧
      process_line A p l = p ++ ' ' :: trim l) := by
  by_cases hpnil : p = []
  · subst hpnil
    left
    exact ⟨rfl, by simp [process_line, htr]⟩
  · obtain ⟨c, hc⟩ : ∃ c, p.getLast? = some c := by
      cases hq : p.getLast? with
      | none => exact absurd (List.getLast?_eq_none_iff.mp hq) hpnil
      | some c => exact ⟨c, rfl⟩
    by_cases hcn : c = '\n'
    · subst hcn
      right; left
      refine ⟨hc, ?_⟩
      have hsuf : ['\n'].isSuffixOf p = true := isSuffixOf_singleton_iff.mpr hc
      simp [process_line, htr, hsuf]
    · right; right
      have hws : is_whitespace c = false := (hp c hc).resolve_left hcn
      have hsuf : ['\n'].isSuffixOf p = false := by
        rw [Bool.eq_false_iff]
        intro hx
        have h2 := isSuffixOf_singleton_iff.mp hx
        rw [hc] at h2
        exact hcn (Option.some_inj.mp h2)
      refine ⟨c, hc, hcn, hws, ?_⟩
      have hlast : p.getLast?.getD ' ' = c := by rw [hc]; rfl
      by_cases hA : (A (p.getLast?.getD ' ')
          && A ((trim l).head?.getD ' ')) = true
      · simp [process_line, htr, hpnil, hsuf, hA]
      · simp [process_line, htr, hpnil, hsuf, hA, hlast, hws]

theorem process_line_spec (A : Char → Bool) {p : List Char} (l : List Char)
    (hp : good p) :
    split_whitespace (process_line A p l)
        = split_whitespace p ++ split_whitespace l ∧
      good (process_line A p l) := by
  have hnl : is_whitespace '\n' = true := by decide
  have hsp : is_whitespace ' ' = true := by decide
  by_cases htr : trim l = []
  · have hl0 : split_whitespace l = [] := trim_nil_tokens htr
    rcases process_line_blank (A := A) (p := p) htr with he | he <;> rw [he]
    · exact ⟨by simp [hl0], hp⟩
    · constructor
      · rw [split_whitespace_ws_append hnl p []]
        simp [hl0, split_whitespace_nil]
      · intro c hc
        rw [List.getLast?_append_of_ne_nil p (by simp)] at hc
        simp only [List.getLast?_singleton, Option.some.injEq] at hc
        exact Or.inl hc.symm
  · have hltok : split_whitespace (trim l) = split_whitespace l := trim_tokens l
    rcases process_line_nonblank (A := A) htr hp with
      ⟨hpnil, he⟩ | ⟨hlast, he⟩ | ⟨c, hlast, hne, hws, he⟩ <;> rw [he]
    · subst hpnil
      exact ⟨by simpa using hltok, good_append_trim htr []⟩
    · constructor
      · have hd : p.dropLast ++ ['\n'] = p := List.dropLast_append_getLast? _ hlast
        conv_lhs => rw [← hd]
        rw [List.append_assoc, List.singleton_append,
          split_whitespace_ws_append hnl, hltok, ← hd,
          split_whitespace_ws_append hnl p.dropLast []]
        simp [split_whitespace_nil]
      · exact good_append_trim htr p
    · constructor
      · rw [split_whitespace_ws_append hsp, hltok]
      · have : p ++ ' ' :: trim l = (p ++ [' ']) ++ trim l := by simp
        rw [this]
        exact good_append_trim htr (p ++ [' '])

theorem foldl_process_line_tokens (A : Char → Bool) :
    ∀ (ls : List (List Char)) (p : List Char), good p →
      split_whitespace (ls.foldl (process_line A) p)
        = split_whitespace p ++ (ls.map split_whitespace).flatten := by
  intro ls
  induction ls with
  | nil => intro p _; simp
  | cons l ls ih =>
    intro p hp
    obtain ⟨h1, h2⟩ := process_line_spec A l hp
    simp only [List.foldl_cons, List.map_cons, List.flatten_cons]
    rw [ih _ h2, h1, List.append_assoc]

/-! ### `lines` and tokens -/

theorem rstrip_cr_tokens (l : List Char) :
    split_whitespace (rstrip_cr l) = split_whitespace l := by
  unfold rstrip_cr
  by_cases h : l.getLast? = some '\r'
  · rw [if_pos h]
    have hd : l.dropLast ++ ['\r'] = l := List.dropLast_append_getLast? _ h
    conv_rhs => rw [← hd]
    rw [split_whitespace_append_all_ws (by decide)]
  · rw [if_neg h]

theorem lines_aux_tokens :
    ∀ (s cur : List Char),
      ((lines_aux s cur).map split_whitespace).flatten
        = split_whitespace (cur.reverse ++ s) := by
  intro s
  induction s with
  | nil =>
    intro cur
    by_cases hc : cur = [] <;> simp [lines_aux, hc, split_whitespace_nil]
  | cons c cs ih =>
    intro cur
    by_cases hcn : c = '\n'
    · subst hcn
      have hstep : lines_aux ('\n' :: cs) cur
          = rstrip_cr cur.reverse :: lines_aux cs [] := by
        simp [lines_aux]
      rw [hstep, List.map_cons, List.flatten_cons, rstrip_cr_tokens, ih []]
      simp only [List.reverse_nil, List.nil_append]
      rw [split_whitespace_ws_append (by decide) cur.reverse cs]
    · have hstep : lines_aux (c :: cs) cur = lines_aux cs (c :: cur) := by
        simp [lines_aux, hcn]
      rw [hstep, ih (c :: cur)]
      simp [List.append_assoc]

theorem lines_tokens (s : List Char) :
    ((lines s).map split_whitespace).flatten = split_whitespace s := by
  simpa using lines_aux_tokens s []

/-! ### Claim C1: the refinement theorem -/

/-- Claim C1's spec-side normalizer, modelled from the spec's words: the
fixed header, then the input's whitespace-separated tokens joined by
single spaces, then the fixed footer. -/
def spec_token_join (raw_text : List Char) : List Char :=
  HEADER ++ join_space (split_whitespace raw_text) ++ FOOTER

theorem cleaned_content_eq (A : Char → Bool) (raw_text : List Char) :
    cleaned_content A raw_text = join_space (split_whitespace raw_text) := by
  unfold cleaned_content
  congr 1
  rw [foldl_process_line_tokens A (lines raw_text) [] good_nil]
  simpa using lines_tokens raw_text

/-- C1: for every input string, and for every choice of the
`is_alphanumeric` predicate (so in particular for Rust's),
`process_extracted_text` produces exactly the fixed header followed by
the input's whitespace-separated tokens joined by single spaces followed
by the fixed footer; the line-by-line reconstruction of steps 1–4
(trimming, blank-line paragraph breaks, conditional space insertion) has
no observable effect beyond this token join, because the final
whitespace-collapse pass removes all internal newlines. -/
theorem process_extracted_text_eq_token_join (A : Char → Bool)
    (raw_text : List Char) :
    process_extracted_text A raw_text = spec_token_join raw_text := by
  unfold process_extracted_text spec_token_join
  rw [cleaned_content_eq]

/-! ### Claim C2: single spacing, no newlines -/

theorem chain_of_all_nonws {t : List Char}
    (h : ∀ c ∈ t, is_whitespace c = false) :
    t.Chain' (fun a b => is_whitespace a = false ∨ is_whitespace b = false) := by
  induction t with
  | nil => simp
  | cons a t ih =>
    cases t with
    | nil => simp
    | cons b t' =>
      rw [List.chain'_cons]
      exact ⟨Or.inl (h a (by simp)), ih (fun c hc => h c (by simp [hc]))⟩

theorem join_space_head {t : List Char} (ts : List (List Char)) (ht : t ≠ []) :
    (join_space (t :: ts)).head? = t.head? := by
  cases ts with
  | nil => rfl
  | cons t' ts' =>
    show (t ++ ' ' :: join_space (t' :: ts')).head? = t.head?
    cases t with
    | nil => exact absurd rfl ht
    | cons a t'' => rfl

theorem join_space_chain :
    ∀ (ts : List (List Char)),
      (∀ t ∈ ts, t ≠ [] ∧ ∀ c ∈ t, is_whitespace c = false) →
      (join_space ts).Chain'
        (fun a b => is_whitespace a = false ∨ is_whitespace b = false) := by
  intro ts
  induction ts with
  | nil => intro _; simp [join_space]
  | cons t ts ih =>
    intro h
    obtain ⟨htne, htc⟩ := h t (by simp)
    have hts : ∀ u ∈ ts, u ≠ [] ∧ ∀ c ∈ u, is_whitespace c = false :=
      fun u hu => h u (by simp [hu])
    cases ts with
    | nil => exact chain_of_all_nonws htc
    | cons t' ts' =>
      show (t ++ ' ' :: join_space (t' :: ts')).Chain' _
      rw [List.chain'_append]
      refine ⟨chain_of_all_nonws htc, ?_, ?_⟩
      · rw [List.chain'_cons']
        refine ⟨?_, ih hts⟩
        intro b hb
        obtain ⟨ht'ne, ht'c⟩ := hts t' (by simp)
        rw [join_space_head ts' ht'ne] at hb
        exact Or.inr (ht'c b (List.mem_of_mem_head? hb))
      · intro x hx y hy
        exact Or.inl (htc x (List.mem_of_mem_getLast? hx))

theorem join_space_space_or_nonws :
    ∀ (ts : List (List Char)),
      (∀ t ∈ ts, t ≠ [] ∧ ∀ c ∈ t, is_whitespace c = false) →
      ∀ c ∈ join_space ts, c = ' ' ∨ is_whitespace c = false := by
  intro ts
  induction ts with
  | nil => intro _ c hc; simp [join_space] at hc
  | cons t ts ih =>
    intro h c hc
    have hts : ∀ u ∈ ts, u ≠ [] ∧ ∀ c ∈ u, is_whitespace c = false :=
      fun u hu => h u (by simp [hu])
    cases ts with
    | nil => exact Or.inr ((h t (by simp)).2 c hc)
    | cons t' ts' =>
      have hj : join_space (t :: t' :: ts') = t ++ ' ' :: join_space (t' :: ts') :=
        rfl
      rw [hj] at hc
      rcases List.mem_append.mp hc with hc | hc
      · exact Or.inr ((h t (by simp)).2 c hc)
      · rcases List.mem_cons.mp hc with rfl | hc
        · exact Or.inl rfl
        · exact ih hts c hc

/-- C2: for every input string (and every `is_alphanumeric` predicate),
the content region of `process_extracted_text`'s output — the text
between the header block and the footer marker, i.e. `cleaned_content` —
has no two adjacent whitespace characters (so no whitespace run longer
than a single space) and contains no newline character. -/
theorem cleaned_content_single_spaced (A : Char → Bool) (raw_text : List Char) :
    (cleaned_content A raw_text).Chain'
        (fun a b => is_whitespace a = false ∨ is_whitespace b = false) ∧
      '\n' ∉ cleaned_content A raw_text := by
  rw [cleaned_content_eq]
  refine ⟨join_space_chain _ split_whitespace_mem, ?_⟩
  intro hm
  rcases join_space_space_or_nonws _ split_whitespace_mem '\n' hm with h | h
  · exact absurd h (by decide)
  · exact absurd h (by decide)

/-! ### Claim C6: idempotence of normalization -/

/-- C6: normalization of the content region is idempotent — running the
normalizer on an already-normalized content region returns it unchanged
(even for a different choice `B` of the `is_alphanumeric` predicate on
the second run). -/
theorem cleaned_content_idempotent (A B : Char → Bool) (raw_text : List Char) :
    cleaned_content B (cleaned_content A raw_text)
      = cleaned_content A raw_text := by
  rw [cleaned_content_eq B, cleaned_content_eq A,
    split_whitespace_join_space _ split_whitespace_mem]

/-! ### Claim C3: the marker lines -/

/-- Containment of a marker string: `marker` occurs contiguously in
`out`. -/
def contains_line (out marker : List Char) : Prop :=
  ∃ u v, out = u ++ marker ++ v

theorem contains_line_append_right {x m : List Char} (rest : List Char)
    (h : contains_line x m) : contains_line (x ++ rest) m := by
  obtain ⟨u, v, rfl⟩ := h
  exact ⟨u, v ++ rest, by simp [List.append_assoc]⟩

theorem contains_line_append_left {x m : List Char} (pre : List Char)
    (h : contains_line x m) : contains_line (pre ++ x) m := by
  obtain ⟨u, v, rfl⟩ := h
  exact ⟨pre ++ u, v, by simp [List.append_assoc]⟩

/-- C3: for every input string, the output of `process_extracted_text`
contains the exact header marker line, the two explanation lines, the
content-begin marker line, and the exact footer marker line. -/
theorem process_extracted_text_markers (A : Char → Bool)
    (raw_text : List Char) :
    contains_line (process_extracted_text A raw_text)
        "=== PDF TEXT EXTRACTION ===\n".toList ∧
      contains_line (process_extracted_text A raw_text)
        "This text was extracted from a PDF file for AI processing.\n".toList ∧
      contains_line (process_extracted_text A raw_text)
        "Some formatting and layout information may be lost.\n".toList ∧
      contains_line (process_extracted_text A raw_text)
        "=== CONTENT BEGINS ===\n".toList ∧
      contains_line (process_extracted_text A raw_text)
        "=== CONTENT ENDS ===\n".toList := by
  have hout : process_extracted_text A raw_text
      = (HEADER ++ cleaned_content A raw_text) ++ FOOTER := rfl
  have hhead : HEADER
      = ((HEADER_LINE1 ++ HEADER_LINE2) ++ HEADER_LINE3) ++ HEADER_LINE4 := rfl
  refine ⟨?_, ?_, ?_, ?_, ?_⟩
  · rw [hout, hhead]
    exact contains_line_append_right _ (contains_line_append_right _
      (contains_line_append_right _ (contains_line_append_right _
        (contains_line_append_right _ ⟨[], [], by decide⟩))))
  · rw [hout, hhead]
    exact contains_line_append_right _ (contains_line_append_right _
      (contains_line_append_right _ (contains_line_append_right _
        (contains_line_append_left _ ⟨[], [], by decide⟩))))
  · rw [hout, hhead]
    exact contains_line_append_right _ (contains_line_append_right _
      (contains_line_append_right _
        (contains_line_append_left _ ⟨[], [], by decide⟩)))
  · rw [hout, hhead]
    exact contains_line_append_right _ (contains_line_append_right _
      (contains_line_append_left _ ⟨[], "\n".toList, by decide⟩))
  · rw [hout]
    exact contains_line_append_left _ ⟨"\n\n".toList, [], by decide⟩

/-! ### Claim C5: the unit-test scenario -/

/-- C5: on the Rust unit test's input (src/main.rs lines 159–166), the
content region of the output is exactly
`"This is a test with multiple spaces and line breaks"`, and the full
output is that content wrapped in the fixed header and footer. -/
theorem test_text_processing :
    cleaned_content ascii_alphanumeric
        ("This is a test\n   \n\nwith multiple    spaces\nand line breaks".toList)
      = "This is a test with multiple spaces and line breaks".toList ∧
    process_extracted_text ascii_alphanumeric
        ("This is a test\n   \n\nwith multiple    spaces\nand line breaks".toList)
      = HEADER ++
          "This is a test with multiple spaces and line breaks".toList ++
          FOOTER := by
  constructor
  · decide
  · show HEADER ++ _ ++ FOOTER = _
    rw [show cleaned_content ascii_alphanumeric
        ("This is a test\n   \n\nwith multiple    spaces\nand line breaks".toList)
      = "This is a test with multiple spaces and line breaks".toList by decide]

/-! ### Claim C7: empty input -/

/-- C7: the empty input produces the header immediately followed by an
empty content region and the footer. -/
theorem process_extracted_text_empty (A : Char → Bool) :
    cleaned_content A [] = [] ∧
      process_extracted_text A [] = HEADER ++ FOOTER := by
  refine ⟨rfl, ?_⟩
  show HEADER ++ cleaned_content A [] ++ FOOTER = HEADER ++ FOOTER
  rw [show cleaned_content A [] = [] from rfl, List.append_nil]

/-! ### Claim C9: totality of the normalizer -/

/-- C9: the normalizer is a total function — for every character-sequence
input (and every `is_alphanumeric` predicate) it returns a result, with
no error condition: the result always exists and is never empty (it
carries at least the header and footer). -/
theorem process_extracted_text_total (A : Char → Bool) (raw_text : List Char) :
    ∃ out : List Char, process_extracted_text A raw_text = out ∧ out ≠ [] := by
  refine ⟨_, rfl, ?_⟩
  intro h
  unfold process_extracted_text at h
  rcases List.append_eq_nil.mp h with ⟨h1, -⟩
  rcases List.append_eq_nil.mp h1 with ⟨h2, -⟩
  exact absurd h2 (by decide)

/-! ### The driver: exit codes, output path, and the `unwrap` panic -/

/-- Outcome of one program run: a normal process exit with a code, or a
Rust panic (from `Option::unwrap` on `None`). -/
inductive Outcome
  | exited (code : Nat)
  | panicked
deriving DecidableEq

/-- Result of the output-path computation: a path, or a panic. -/
inductive PathResult
  | ok (path : List Char)
  | panicked
deriving DecidableEq

/-- Environment of one run: the results of the black-box external operations
`main` performs (src/main.rs lines 42–95).  `input_stem` is the combined
result of `Path::file_stem` and `OsStr::to_str` on the input path:
`none` models either of them returning `None` (e.g.
`Path::new("..").file_stem()` is `None`; `to_str` is `None` for a
non-UTF-8 stem). -/
structure Env where
  input_exists : Bool
  output_flag : Option (List Char)
  input_stem : Option (List Char)
  extract_result : Except (List Char) (List Char)
  write_ok : Bool

/-- Output-path computation of `main` (src/main.rs lines 52–59): an
explicit `--output` value is used verbatim; otherwise the input's file
stem with `".txt"` appended (`format!("{}.txt", stem)`), where the two
`unwrap` calls panic when the stem is absent. -/
def compute_output_path (flag : Option (List Char))
    (stem : Option (List Char)) : PathResult :=
  match flag with
  | some path => .ok path
  | none =>
    match stem with
    | some s => .ok (s ++ ".txt".toList)
    | none => .panicked

/-- Exit behaviour of `main` (src/main.rs lines 45–95) as a function of
the environment, in program order: input-existence check, output-path
computation, extraction, write. -/
def main_model (env : Env) : Outcome :=
  if !env.input_exists then .exited 1
  else
    match compute_output_path env.output_flag env.input_stem with
    | .panicked => .panicked
    | .ok _ =>
      match env.extract_result with
      | .error _ => .exited 1
      | .ok _ => if env.write_ok then .exited 0 else .exited 1

/-- C4: the process exits with status 0 exactly on the success path, and
exits with status 1 exactly in the three error cases — missing input
file, extraction failure, write failure — each checked once, in program
order, with no retry or recovery (the model is a single pass). -/
theorem main_model_exit_codes (env : Env) :
    (main_model env = .exited 0 ↔
      env.input_exists = true ∧
      compute_output_path env.output_flag env.input_stem ≠ .panicked ∧
      (∃ text, env.extract_result = .ok text) ∧ env.write_ok = true) ∧
    (main_model env = .exited 1 ↔
      env.input_exists = false ∨
      (env.input_exists = true ∧
        compute_output_path env.output_flag env.input_stem ≠ .panicked ∧
        (∃ e, env.extract_result = .error e)) ∨
      (env.input_exists = true ∧
        compute_output_path env.output_flag env.input_stem ≠ .panicked ∧
        (∃ text, env.extract_result = .ok text) ∧ env.write_ok = false)) := by
  obtain ⟨ie, fl, st, ex, wr⟩ := env
  rcases hcp : compute_output_path fl st with p | _ <;>
    cases ie <;> rcases ex with e | t <;> cases wr <;>
      simp [main_model, hcp]

/-- C8: when the `--output` flag is given, its value is used verbatim as
the output path; when it is absent (and the input has a stem), the output
path is the input's file stem with `".txt"` appended. -/
theorem compute_output_path_spec :
    (∀ (path : List Char) (stem : Option (List Char)),
        compute_output_path (some path) stem = .ok path) ∧
      ∀ stem : List Char,
        compute_output_path none (some stem) = .ok (stem ++ ".txt".toList) :=
  ⟨fun _ _ => rfl, fun _ => rfl⟩

/-- C10: when the input file exists, no `--output` flag is given, and the
input path has no file stem (e.g. `".."`s) or a non-UTF-8 stem, `main`
panics on `unwrap` instead of reporting an error and exiting with
status 1 (or any status). -/
theorem main_model_panics_on_missing_stem (env : Env)
    (hex : env.input_exists = true) (hfl : env.output_flag = none)
    (hst : env.input_stem = none) :
    main_model env = .panicked ∧ ∀ code, main_model env ≠ .exited code := by
  have hcp : compute_output_path env.output_flag env.input_stem = .panicked := by
    rw [hfl, hst]
    rfl
  have h : main_model env = .panicked := by
    simp [main_model, hex, hcp]
  refine ⟨h, fun code hc => ?_⟩
  rw [h] at hc
  exact Outcome.noConfusion hc

/-- Witness for C10 at a concrete environment: the input exists, no
`--output` flag, no file stem. -/
theorem main_model_panics_on_missing_stem_witness :
    main_model ⟨true, none, none, Except.ok [], true⟩ = Outcome.panicked :=
  (main_model_panics_on_missing_stem ⟨true, none, none, Except.ok [], true⟩
    rfl rfl rfl).1

end PDFBot
